import Mathlib

set_option linter.unusedVariables false
set_option linter.unusedSectionVars false

/-!
Verification of the channel-representation engine of QuTIpy (`qutipy/channels.py`).

The source manipulates numpy 2-D complex arrays whose shapes are only known at run
time (heterogeneous lists of Kraus operators, growing Kronecker folds), so matrices
are embedded untyped: a `Mat R` carries explicit row/column counts and a total entry
function over a commutative *-ring `R` (instantiated at `ℤ` for concrete witnesses,
with `ℂ` an instance of the same signature).  Entries outside the declared shape are
junk; `MatEq` compares two matrices on their declared shapes, which is what exact
arithmetic equality of numpy arrays means.

External collaborators that live outside `qutipy/channels.py` (the linear-algebra
substrate `qutipy.general_functions`/`qutipy.linalg`, scipy's eigendecomposition and
matrix square root, and the random-state generators) are modelled either directly
from the spec (`max_ent`, `ket`, `tensor`, `eye`, `dag`, `Tr`) or as oracle
parameters of the embedded functions (eigendecomposition output, `np.sqrt` of the
eigenvalues, Gram–Schmidt rebuilds, random samples, `inv(sqrtm(·))`).
-/

/-- A numpy 2-D array over `R`: explicit shape plus a total entry function.
Entries at indices outside `rows × cols` are junk and never observed by `MatEq`. -/
structure Mat (R : Type) where
  rows : ℕ
  cols : ℕ
  entry : ℕ → ℕ → R

variable {R : Type} [CommRing R] [StarRing R] [DecidableEq R]

namespace Mat

/-- The numpy scalar `0.0` (the value of `np.sum([], 0)`), viewed as a 1×1 array. -/
def zeroScalar : Mat R := ⟨1, 1, fun _ _ => 0⟩

/-- The Python scalar `1` used to seed the `tensor` folds (`tmp = 1`, `X = 1`);
`np.kron` of this scalar with a matrix `M` is `M`. -/
def oneScalar : Mat R := ⟨1, 1, fun _ _ => 1⟩

/-- Matrix product `A @ B` (row `i` of `A` against column `j` of `B`,
contracting over the declared column count of `A`). -/
def mul (A B : Mat R) : Mat R :=
  ⟨A.rows, B.cols, fun i j => ∑ k ∈ Finset.range A.cols, A.entry i k * B.entry k j⟩

/-- Conjugate transpose `dag(A)` (qutipy.general_functions.dag, modelled from the
spec's linear-algebra substrate). -/
def dag (A : Mat R) : Mat R :=
  ⟨A.cols, A.rows, fun i j => star (A.entry j i)⟩

/-- numpy `.transpose()` / `.T`. -/
def transp (A : Mat R) : Mat R :=
  ⟨A.cols, A.rows, fun i j => A.entry j i⟩

/-- numpy `np.conjugate`: entrywise star, no transposition. -/
def conjM (A : Mat R) : Mat R :=
  ⟨A.rows, A.cols, fun i j => star (A.entry i j)⟩

/-- numpy `np.kron` (qutipy.general_functions.tensor on two factors, modelled from
the spec's linear-algebra substrate): row-major Kronecker product, second factor
varying fastest. -/
def kron (A B : Mat R) : Mat R :=
  ⟨A.rows * B.rows, A.cols * B.cols, fun i j =>
    A.entry (i / B.rows) (j / B.cols) * B.entry (i % B.rows) (j % B.cols)⟩

/-- Scalar multiple `c * A`. -/
def smul (c : R) (A : Mat R) : Mat R :=
  ⟨A.rows, A.cols, fun i j => c * A.entry i j⟩

/-- `np.eye d` (qutipy.general_functions.eye, modelled from the spec's
linear-algebra substrate). -/
def eye (d : ℕ) : Mat R := ⟨d, d, fun i j => if i = j then 1 else 0⟩

/-- `ket(n, i)` (qutipy.general_functions.ket, modelled from the spec's
linear-algebra substrate): the `i`-th computational basis column vector. -/
def ketM (n i : ℕ) : Mat R := ⟨n, 1, fun r _ => if r = i then 1 else 0⟩

/-- Diagonal matrix with diagonal `D` (used to state what the external
eigendecomposition backend returns). -/
def diagM (n : ℕ) (D : ℕ → R) : Mat R :=
  ⟨n, n, fun i j => if i = j then D i else 0⟩

/-- `np.trace` (qutipy.general_functions.Tr, modelled from the spec's
linear-algebra substrate): sum of the diagonal. -/
def traceM (A : Mat R) : R := ∑ i ∈ Finset.range A.rows, A.entry i i

/-- `np.sum(L, 0)` over a list of equal-shaped matrices; on the empty list numpy
returns the scalar `0.0`, embedded as `zeroScalar`. -/
def sumMats (L : List (Mat R)) : Mat R :=
  ⟨(L.headD zeroScalar).rows, (L.headD zeroScalar).cols,
    fun i j => (L.map (fun M => M.entry i j)).sum⟩

/-- Column `i` of `A` as a flat vector (`U[:, i]`). -/
def colF (A : Mat R) (i : ℕ) : ℕ → R := fun r => A.entry r i

/-- Row-major flattening of `A` (the order in which numpy `reshape` reads entries). -/
def flatF (A : Mat R) : ℕ → R := fun t => A.entry (t / A.cols) (t % A.cols)

/-- numpy `Col.reshape([dA, dB])` of a flat vector: row-major refill. -/
def unvec (dA dB : ℕ) (col : ℕ → R) : Mat R :=
  ⟨dA, dB, fun a b => col (a * dB + b)⟩

end Mat

/-- Exact-arithmetic equality of two numpy arrays: same declared shape and equal
entries everywhere on that shape. -/
def MatEq (A B : Mat R) : Prop :=
  A.rows = B.rows ∧ A.cols = B.cols ∧
    ∀ i < A.rows, ∀ j < A.cols, A.entry i j = B.entry i j

instance (A B : Mat R) : Decidable (MatEq A B) := by
  unfold MatEq; infer_instance

/-- `ts.map (x :: ·) ++ …` over the `x ∈ l`: helper for `cartProd`. -/
def prependEach : List ℕ → List (List ℕ) → List (List ℕ)
  | [], _ => []
  | x :: xs, ts => ts.map (fun t => x :: t) ++ prependEach xs ts

/-- `itertools.product` over lists of naturals, in itertools order (leftmost factor
varies slowest). -/
def cartProd : List (List ℕ) → List (List ℕ)
  | [] => [[]]
  | l :: ls => prependEach l (cartProd ls)

/-- `itertools.product(range(r), repeat=k)`. -/
def indexTuples (r k : ℕ) : List (List ℕ) :=
  cartProd (List.replicate k (List.range r))

/-- The inner loop of `apply_channel`'s subsystem branch (lines 275–284): walk the
dimension list, tensoring on either the next Kraus operator (when position `i+1`
is in `sys`, consuming entries of `index` via the counter `l`) or an identity. -/
def buildX (K : List (Mat R)) (sys : List ℕ) (index : List ℕ) :
    ℕ → ℕ → List ℕ → Mat R → Mat R
  | _, _, [], X => X
  | i, l, d :: ds, X =>
    if i + 1 ∈ sys then
      buildX K sys index (i + 1) (l + 1) ds (X.kron (K.getD (index.getD l 0) Mat.zeroScalar))
    else
      buildX K sys index (i + 1) l ds (X.kron (Mat.eye d))

/-- `apply_channel` (lines 242–286).  The cvxpy-variable branch (lines 252–255) is a
type-dispatch wrapper around the same computation and is not part of the numeric
semantics embedded here. -/
def apply_channel (K : List (Mat R)) (rho : Mat R) (sys : Option (List ℕ))
    (dim : Option (List ℕ)) (adjoint : Bool) : Mat R :=
  let Kd := if adjoint then K.map Mat.dag else K
  match sys with
  | none => Mat.sumMats (Kd.map (fun Ki => (Ki.mul rho).mul Ki.dag))
  | some s =>
    let dims := dim.getD []
    let A := (indexTuples Kd.length s.length).map
      (fun index => buildX Kd s index 0 0 dims Mat.oneScalar)
    Mat.sumMats (A.map (fun X => (X.mul rho).mul X.dag))

/-- Modelled from the spec (`max_ent` lives in qutipy.states, outside src/): the
unnormalized maximally entangled vector `Σ_i |i⟩|i⟩` on A⊗A, as a column vector. -/
def maxEntVec (d : ℕ) : Mat R :=
  ⟨d * d, 1, fun p _ => if p / d = p % d then 1 else 0⟩

/-- Modelled from the spec: `max_ent(d, normalized=False)` returns the outer product
of the unnormalized maximally entangled vector with itself. -/
def max_ent (d : ℕ) : Mat R := (maxEntVec d).mul (maxEntVec d).dag

/-- `choi_representation` (lines 54–65): apply the map to the second half of the
unnormalized maximally entangled operator. -/
def choi_representation (K : List (Mat R)) (dA : ℕ) : Mat R :=
  apply_channel K (max_ent dA) (some [2]) (some [dA, dA]) false

/-- `natural_representation` (lines 68–79): `Σ_i K_i ⊗ conj(K_i)`. -/
def natural_representation (K : List (Mat R)) : Mat R :=
  Mat.sumMats (K.map (fun k => k.kron k.conjM))

/-- `choi_to_kraus` (lines 82–115).  The eigendecomposition `D, U = eig(P)` is done
by the external backend (scipy.linalg.eig): `U` models the returned eigenvector
matrix and `sqrtD i` models `np.sqrt(D[i])`.  `Ugs` models the unitary the code
rebuilds from Gram–Schmidt-orthonormalized columns (qutipy.linalg.gram_schmidt,
outside src/) and substitutes when `U` fails the unitarity check. -/
def choi_to_kraus (P : Mat R) (dA dB : ℕ) (sqrtD : ℕ → R) (U Ugs : Mat R) :
    List (Mat R) :=
  let Ucols := U.cols
  let check1 := MatEq (Mat.eye (dA * dB)) (U.mul U.dag)
  let check2 := MatEq (Mat.eye (dA * dB)) (U.dag.mul U)
  let Uu := if check1 ∧ check2 then U else Ugs
  (List.range Ucols).map
    (fun i => (Mat.smul (sqrtD i) (Mat.unvec dA dB (Uu.colF i))).transp)

/-- `choi_to_natural` (lines 118–136): reshape the Choi matrix to a rank-4 tensor
of sizes `(dA,dB,dA,dB)`, permute axes by `(0,2,1,3)`, reshape to `dA²×dA... dB²`,
then transpose.  Each numpy step is a row-major flat-index reinterpretation. -/
def choi_to_natural (C_AB : Mat R) (dA dB : ℕ) : Mat R :=
  -- np.reshape(C_AB, [dA, dB, dA, dB])
  let T : ℕ → ℕ → ℕ → ℕ → R := fun a b a2 b2 =>
    C_AB.flatF (((a * dB + b) * dA + a2) * dB + b2)
  -- .transpose((0, 2, 1, 3))
  let T2 : ℕ → ℕ → ℕ → ℕ → R := fun a a2 b b2 => T a b a2 b2
  -- .reshape([dA * dA, dB * dB])
  let M : Mat R := ⟨dA * dA, dB * dB, fun p q => T2 (p / dA) (p % dA) (q / dB) (q % dB)⟩
  -- .T
  M.transp

/-- `compose_channels` (lines 289–315): for each tuple in the Cartesian product of
Kraus indices, successively left-multiply onto `eye d` (`tmp = C[i][comb[i]] @ tmp`),
where `d` is the row count of the first operator of the first map. -/
def compose_channels (C : List (List (Mat R))) : List (Mat R) :=
  let d := ((C.headD []).headD Mat.zeroScalar).rows
  let combs := cartProd (C.map (fun c => List.range c.length))
  combs.map (fun comb =>
    (List.zip C comb).foldl (fun tmp p => (p.1.getD p.2 Mat.zeroScalar).mul tmp) (Mat.eye d))

/-- `tensor_channels` (lines 318–339): for each tuple in the Cartesian product of
Kraus indices, fold `tensor` starting from the scalar `1`. -/
def tensor_channels (C : List (List (Mat R))) : List (Mat R) :=
  let combs := cartProd (C.map (fun c => List.range c.length))
  combs.map (fun comb =>
    (List.zip C comb).foldl (fun tmp p => tmp.kron (p.1.getD p.2 Mat.zeroScalar)) Mat.oneScalar)

/-- `n_channel_uses` (lines 342–363): Kraus operators of the n-fold tensor power,
one per tuple in `itertools.product(range(len K), repeat=n)`. -/
def n_channel_uses (K : List (Mat R)) (n : ℕ) : List (Mat R) :=
  let r := K.length
  let combs := cartProd (List.replicate n (List.range r))
  combs.map (fun comb =>
    comb.foldl (fun tmp i => tmp.kron (K.getD i Mat.zeroScalar)) Mat.oneScalar)

/-- Possible return values of `random_CP_map`: an error-message string, a single
matrix (Choi/natural/Stinespring) or a Kraus list. -/
inductive CPOut (R : Type) where
  | str : String → CPOut R
  | mat : Mat R → CPOut R
  | kraus : List (Mat R) → CPOut R

/-- `random_CP_map` (lines 433–482).  `C_AB` models the externally sampled random
density matrix (qutipy.states.random_density_matrix, outside src/); `tpNorm` and
`unitalNorm` model the conjugations computed with the external
`partial_trace`/`inv`/`sqrtm`; `krausOf` and `stinespringOf` model
`choi_to_kraus`/`choi_to_stinespring` together with their external
eigendecompositions and square roots.  In the TP-and-unital branch the source
returns an error-message string when `dA ≠ dB` and otherwise falls through with
`C_AB` unchanged (the `TO DO` branch); the unrecognized `return_as` branch prints a
warning and returns the Choi matrix. -/
def random_CP_map (C_AB : Mat R) (dA dB : ℕ) (TP unital : Bool)
    (tpNorm unitalNorm : Mat R → Mat R)
    (krausOf : Mat R → List (Mat R)) (stinespringOf : Mat R → Mat R)
    (return_as : String) : CPOut R :=
  let branch : Sum String (Mat R) :=
    if !TP && !unital then Sum.inr C_AB
    else if TP && !unital then Sum.inr (tpNorm C_AB)
    else if !TP && unital then Sum.inr (unitalNorm C_AB)
    else if dA ≠ dB then
      Sum.inl "Input and output dimensions must match for a TP and unital CP map!"
    else Sum.inr C_AB
  match branch with
  | Sum.inl s => CPOut.str s
  | Sum.inr C =>
    if return_as = "choi" then CPOut.mat C
    else if return_as = "kraus" then CPOut.kraus (krausOf C)
    else if return_as = "natural" then CPOut.mat (choi_to_natural C dA dB)
    else if return_as = "stinespring" then CPOut.mat (stinespringOf C)
    else CPOut.mat C

/-- `random_POVM` (lines 494–526).  `C` models the Choi matrix of the externally
generated random quantum channel (`via_choi=True` branch); `S` models the externally
sampled random density matrices and `R_inv_sq` the external `inv(sqrtm(np.sum(S, 0)))`
(`via_choi=False` branch).  In the latter branch the loop computes each candidate
element `Mi` but never appends it to the accumulator `M`, which is returned as-is. -/
def random_POVM (d num_elem : ℕ) (via_choi : Bool) (C : Mat R) (S : List (Mat R))
    (R_inv_sq : Mat R) : List (Mat R) :=
  if via_choi then
    (List.range num_elem).map (fun i =>
      (((Mat.eye d).kron (Mat.ketM num_elem i).dag).mul C).mul
        ((Mat.eye d).kron (Mat.ketM num_elem i)))
  else
    let _Mis := (List.range num_elem).map
      (fun i => (R_inv_sq.mul (S.getD i Mat.zeroScalar)).mul R_inv_sq)
    []

/-- Left-associated product of a nonempty list of matrices,
`matChainProd [A, B, C] = (A @ B) @ C`; used to state the composition order of
`compose_channels` independently of its accumulator loop. -/
def matChainProd : List (Mat R) → Mat R
  | [] => Mat.oneScalar
  | h :: t => t.foldl Mat.mul h

/-! ### Basic facts about the matrix embedding -/

theorem matEq_refl (A : Mat R) : MatEq A A :=
  ⟨rfl, rfl, fun _ _ _ _ => rfl⟩

theorem mat_mul_entry (A B : Mat R) (i j : ℕ) :
    (A.mul B).entry i j = ∑ k ∈ Finset.range A.cols, A.entry i k * B.entry k j := rfl

theorem mat_mul_assoc (A B C : Mat R) : (A.mul B).mul C = A.mul (B.mul C) := by
  unfold Mat.mul
  refine congrArg (Mat.mk A.rows C.cols) ?_
  funext i j
  simp only [Finset.sum_mul, Finset.mul_sum]
  rw [Finset.sum_comm]
  exact Finset.sum_congr rfl fun k _ => Finset.sum_congr rfl fun l _ => by ring

theorem list_sum_map_range (f : ℕ → R) (n : ℕ) :
    ((List.range n).map f).sum = ∑ i ∈ Finset.range n, f i := by
  induction n with
  | zero => simp
  | succ m ih => simp [List.range_succ, Finset.sum_range_succ, ih]

theorem list_sum_map_getD {α : Type} (L : List α) (f : α → R) (d : α) :
    (L.map f).sum = ∑ i ∈ Finset.range L.length, f (L.getD i d) := by
  induction L with
  | nil => simp
  | cons a t ih =>
    simp only [List.map_cons, List.sum_cons, List.length_cons, ih]
    rw [Finset.sum_range_succ']
    simp [List.getD, add_comm]

theorem finset_sum_list_sum {α : Type} (s : Finset ℕ) (L : List α) (f : ℕ → α → R) :
    ∑ i ∈ s, (L.map (f i)).sum = (L.map (fun a => ∑ i ∈ s, f i a)).sum := by
  induction L with
  | nil => simp
  | cons a t ih => simp [Finset.sum_add_distrib, ih]

/-! ### C7: apply_channel on the empty Kraus list -/

/-- C7 counterexample: at the concrete input `K = []`, `rho = eye 2`, the function
`apply_channel` returns the numpy scalar `0.0` (the value of `np.sum([], 0)`) — an
ordinary numeric result — so no invalid-map error is reported to the caller. -/
theorem C7_empty_kraus_counterexample :
    MatEq (apply_channel ([] : List (Mat ℤ)) (Mat.eye 2) none none false)
      Mat.zeroScalar := by decide

/-- C7 (amended): for every input matrix `rho`, `apply_channel` with the empty
Kraus list raises no error and returns the numpy scalar `0.0`
(`np.sum` of the empty list of summands). -/
theorem C7_empty_kraus_returns_zero (rho : Mat R) :
    MatEq (apply_channel ([] : List (Mat R)) rho none none false) Mat.zeroScalar :=
  ⟨rfl, rfl, fun _ _ _ _ => rfl⟩

/-! ### C8: random_CP_map with TP=True, unital=True, dA ≠ dB -/

/-- C8 counterexample: at the concrete input `dA = 2`, `dB = 3`, requesting a
TP-and-unital CP map makes `random_CP_map` return an ordinary value — the
error-message string — rather than raising an UnsupportedConfigurationError. -/
theorem C8_tp_unital_counterexample :
    random_CP_map (Mat.zeroScalar : Mat ℤ) 2 3 true true id id (fun _ => []) id "choi"
      = CPOut.str "Input and output dimensions must match for a TP and unital CP map!" := rfl

/-- C8 (amended): for every `dA ≠ dB`, requesting a TP-and-unital CP map makes
`random_CP_map` return the error-message string
`"Input and output dimensions must match for a TP and unital CP map!"` as an
ordinary value (no exception is raised), for every sampled input and every
`return_as` choice. -/
theorem C8_tp_unital_mismatch_returns_string (C_AB : Mat R) (dA dB : ℕ)
    (tpNorm unitalNorm : Mat R → Mat R) (krausOf : Mat R → List (Mat R))
    (stinespringOf : Mat R → Mat R) (return_as : String) (h : dA ≠ dB) :
    random_CP_map C_AB dA dB true true tpNorm unitalNorm krausOf stinespringOf return_as
      = CPOut.str "Input and output dimensions must match for a TP and unital CP map!" := by
  simp [random_CP_map, h]

/-- Witness for C8: the hypothesis `2 ≠ 3` is satisfiable and the amended theorem
applies there. -/
theorem C8_tp_unital_mismatch_witness :
    (2 : ℕ) ≠ 3 ∧
      random_CP_map (Mat.eye 2 : Mat ℤ) 2 3 true true id id (fun _ => []) id "kraus"
        = CPOut.str "Input and output dimensions must match for a TP and unital CP map!" :=
  ⟨by decide,
    C8_tp_unital_mismatch_returns_string (Mat.eye 2) 2 3 id id (fun _ => []) id "kraus"
      (by decide)⟩

/-! ### C10: random_POVM with via_choi=False -/

/-- C10: for every `d ≥ 1` and `num_elem ≥ 1` (and any externally sampled states
`S` and any `inv(sqrtm(R))` oracle), `random_POVM` with `via_choi = False` returns
the empty list: the pretty-good-measurement branch computes its candidate elements
but never appends them to the accumulator `M`. -/
theorem C10_random_POVM_empty (d num_elem : ℕ) (C : Mat R) (S : List (Mat R))
    (R_inv_sq : Mat R) (hd : 1 ≤ d) (hn : 1 ≤ num_elem) :
    random_POVM d num_elem false C S R_inv_sq = [] := rfl

/-- Witness for C10 at `d = 2`, `num_elem = 3`. -/
theorem C10_random_POVM_empty_witness :
    1 ≤ 2 ∧ 1 ≤ 3 ∧
      random_POVM 2 3 false (Mat.eye 4 : Mat ℤ) [Mat.eye 2] Mat.zeroScalar = [] :=
  ⟨by decide, by decide,
    C10_random_POVM_empty 2 3 (Mat.eye 4) [Mat.eye 2] Mat.zeroScalar (by decide) (by decide)⟩

/-! ### Cartesian-product and fold lemmas -/

theorem getD_mem {α : Type} {L : List α} {i : ℕ} (h : i < L.length) (d : α) :
    L.getD i d ∈ L := by
  rw [List.getD_eq_getElem?_getD, List.getElem?_eq_getElem h]
  exact List.getElem_mem h

theorem prependEach_nilTuple (l : List ℕ) :
    prependEach l [[]] = l.map (fun x => [x]) := by
  induction l with
  | nil => rfl
  | cons x xs ih => simp [prependEach, ih]

theorem cartProd_singleton (l : List ℕ) :
    cartProd [l] = l.map (fun x => [x]) := by
  simp [cartProd, prependEach_nilTuple]

theorem indexTuples_one (r : ℕ) :
    indexTuples r 1 = (List.range r).map (fun i => [i]) := by
  rw [show indexTuples r 1 = cartProd [List.range r] from rfl, cartProd_singleton]

theorem cartProd_pair_single (x : ℕ) (l : List ℕ) :
    cartProd [[x], l] = l.map (fun i => [x, i]) := by
  simp [cartProd, prependEach, prependEach_nilTuple, List.map_map, Function.comp]

theorem prependEach_length (xs : List ℕ) (ts : List (List ℕ)) :
    (prependEach xs ts).length = xs.length * ts.length := by
  induction xs with
  | nil => simp [prependEach]
  | cons x xs ih => simp [prependEach, ih, Nat.succ_mul, Nat.add_comm]

theorem cartProd_length (L : List (List ℕ)) :
    (cartProd L).length = (L.map List.length).prod := by
  induction L with
  | nil => rfl
  | cons l ls ih => simp [cartProd, prependEach_length, ih]

theorem mem_prependEach {xs : List ℕ} {ts : List (List ℕ)} {c : List ℕ} :
    c ∈ prependEach xs ts ↔ ∃ x ∈ xs, ∃ t ∈ ts, c = x :: t := by
  induction xs with
  | nil => simp [prependEach]
  | cons x xs ih =>
    simp only [prependEach, List.mem_append, List.mem_map, ih, List.mem_cons]
    constructor
    · rintro (⟨t, ht, rfl⟩ | ⟨y, hy, t, ht, rfl⟩)
      · exact ⟨x, Or.inl rfl, t, ht, rfl⟩
      · exact ⟨y, Or.inr hy, t, ht, rfl⟩
    · rintro ⟨y, hy | hy, t, ht, rfl⟩
      · exact Or.inl ⟨t, ht, by rw [hy]⟩
      · exact Or.inr ⟨y, hy, t, ht, rfl⟩

theorem mem_cartProd_replicate {l : List ℕ} {n : ℕ} {c : List ℕ}
    (h : c ∈ cartProd (List.replicate n l)) :
    c.length = n ∧ ∀ x ∈ c, x ∈ l := by
  induction n generalizing c with
  | zero =>
    simp only [List.replicate_zero, cartProd, List.mem_singleton] at h
    simp [h]
  | succ m ih =>
    simp only [List.replicate_succ, cartProd] at h
    rcases mem_prependEach.1 h with ⟨x, hx, t, ht, rfl⟩
    obtain ⟨hlen, hmem⟩ := ih ht
    refine ⟨by simp [hlen], ?_⟩
    intro y hy
    rcases List.mem_cons.1 hy with rfl | hy'
    · exact hx
    · exact hmem y hy'

/-! ### apply_channel specialised to sys = [2], dim = [dA, dA] -/

theorem buildX_sys2 (K : List (Mat R)) (i dA : ℕ) :
    buildX K [2] [i] 0 0 [dA, dA] Mat.oneScalar
      = (Mat.oneScalar.kron (Mat.eye dA)).kron (K.getD i Mat.zeroScalar) := by
  have h1 : ¬ (0 + 1 ∈ ([2] : List ℕ)) := by decide
  have h2 : (1 + 1) ∈ ([2] : List ℕ) := by decide
  simp [buildX, h1, h2]

theorem apply_channel_sys2 (K : List (Mat R)) (rho : Mat R) (dA : ℕ) :
    apply_channel K rho (some [2]) (some [dA, dA]) false
      = Mat.sumMats ((List.range K.length).map (fun i =>
          ((((Mat.oneScalar.kron (Mat.eye dA)).kron (K.getD i Mat.zeroScalar)).mul rho).mul
            ((Mat.oneScalar.kron (Mat.eye dA)).kron (K.getD i Mat.zeroScalar)).dag))) := by
  simp only [apply_channel, Option.getD_some, List.length_cons, List.length_nil,
    Nat.zero_add, Bool.false_eq_true, if_false, indexTuples_one, List.map_map]
  congr 1

theorem tensor_channels_pair (A : Mat R) (K : List (Mat R)) :
    tensor_channels [[A], K] = (List.range K.length).map
      (fun i => (Mat.oneScalar.kron A).kron (K.getD i Mat.zeroScalar)) := by
  have h1 : List.range 1 = [0] := rfl
  simp only [tensor_channels, List.map_cons, List.map_nil, List.length_cons,
    List.length_nil, Nat.zero_add, h1, cartProd_pair_single, List.map_map]
  apply List.map_congr_left
  intro i hi
  rfl

/-! ### C2: applying a map to the second subsystem vs tensoring with identity -/

/-- C2: for every Kraus list `K` of `dB × dA` operators, every `dA ≥ 1` and every
`dA² × dA²` state `rho` on two subsystems of dimensions `[dA, dA]`, applying the map
to the second subsystem only coincides (as numpy arrays) with applying the tensor
extension `tensor_channels [[eye dA], K]` to the whole state. -/
theorem C2_partial_application (K : List (Mat R)) (rho : Mat R) (dA dB : ℕ)
    (hK : ∀ M ∈ K, M.rows = dB ∧ M.cols = dA) (hdA : 1 ≤ dA)
    (hrho : rho.rows = dA * dA ∧ rho.cols = dA * dA) :
    apply_channel K rho (some [2]) (some [dA, dA]) false
      = apply_channel (tensor_channels [[Mat.eye dA], K]) rho none none false := by
  rw [apply_channel_sys2]
  show _ = Mat.sumMats ((tensor_channels [[Mat.eye dA], K]).map
    (fun Ki => (Ki.mul rho).mul Ki.dag))
  rw [tensor_channels_pair, List.map_map]
  rfl

/-- Witness for C2: the identity-Kraus channel on one qubit, `rho = eye 4`. -/
theorem C2_partial_application_witness :
    (∀ M ∈ [(Mat.eye 2 : Mat ℤ)], M.rows = 2 ∧ M.cols = 2) ∧ 1 ≤ 2 ∧
      ((Mat.eye 4 : Mat ℤ).rows = 2 * 2 ∧ (Mat.eye 4 : Mat ℤ).cols = 2 * 2) ∧
      apply_channel [(Mat.eye 2 : Mat ℤ)] (Mat.eye 4) (some [2]) (some [2, 2]) false
        = apply_channel (tensor_channels [[Mat.eye 2], [(Mat.eye 2 : Mat ℤ)]])
            (Mat.eye 4) none none false :=
  ⟨by decide, by decide, by decide,
    C2_partial_application [Mat.eye 2] (Mat.eye 4) 2 2 (by decide) (by decide) (by decide)⟩

/-! ### C9: cardinality and shapes of n_channel_uses -/

theorem foldKron_dims (K : List (Mat R)) (dA dB : ℕ)
    (hK : ∀ M ∈ K, M.rows = dB ∧ M.cols = dA) :
    ∀ (comb : List ℕ) (X : Mat R), (∀ x ∈ comb, x < K.length) →
      (comb.foldl (fun tmp i => tmp.kron (K.getD i Mat.zeroScalar)) X).rows
          = X.rows * dB ^ comb.length ∧
        (comb.foldl (fun tmp i => tmp.kron (K.getD i Mat.zeroScalar)) X).cols
          = X.cols * dA ^ comb.length := by
  intro comb
  induction comb with
  | nil => intro X _; simp
  | cons i t ih =>
    intro X hx
    have hi : i < K.length := hx i (by simp)
    obtain ⟨hr, hc⟩ := hK _ (getD_mem hi Mat.zeroScalar)
    obtain ⟨ihr, ihc⟩ := ih (X.kron (K.getD i Mat.zeroScalar))
      (fun x h => hx x (by simp [h]))
    constructor
    · rw [List.foldl_cons, ihr]
      simp only [Mat.kron, hr, List.length_cons]
      ring
    · rw [List.foldl_cons, ihc]
      simp only [Mat.kron, hc, List.length_cons]
      ring

/-- C9: for every Kraus list of `dB × dA` operators and every `n ≥ 1`,
`n_channel_uses K n` consists of exactly `|K| ^ n` Kraus operators, each of shape
`dB ^ n × dA ^ n`. -/
theorem C9_n_channel_uses (K : List (Mat R)) (n dA dB : ℕ)
    (hK : ∀ M ∈ K, M.rows = dB ∧ M.cols = dA) (hn : 1 ≤ n) :
    (n_channel_uses K n).length = K.length ^ n ∧
      ∀ M ∈ n_channel_uses K n, M.rows = dB ^ n ∧ M.cols = dA ^ n := by
  constructor
  · simp [n_channel_uses, cartProd_length, List.map_replicate, List.prod_replicate]
  · intro M hM
    simp only [n_channel_uses, List.mem_map] at hM
    obtain ⟨comb, hcomb, rfl⟩ := hM
    obtain ⟨hlen, hmem⟩ := mem_cartProd_replicate hcomb
    have hx : ∀ x ∈ comb, x < K.length := fun x hxc => List.mem_range.1 (hmem x hxc)
    obtain ⟨hr, hc⟩ := foldKron_dims K dA dB hK comb Mat.oneScalar hx
    rw [hr, hc, hlen]
    simp [Mat.oneScalar]

/-- Witness for C9: two Kraus operators on one qubit, `n = 2` uses. -/
theorem C9_n_channel_uses_witness :
    (∀ M ∈ [(Mat.eye 2 : Mat ℤ), Mat.eye 2], M.rows = 2 ∧ M.cols = 2) ∧ 1 ≤ 2 ∧
      (n_channel_uses [(Mat.eye 2 : Mat ℤ), Mat.eye 2] 2).length = 2 ^ 2 ∧
      ∀ M ∈ n_channel_uses [(Mat.eye 2 : Mat ℤ), Mat.eye 2] 2,
        M.rows = 2 ^ 2 ∧ M.cols = 2 ^ 2 := by
  refine ⟨by decide, by decide, ?_⟩
  have h := C9_n_channel_uses [(Mat.eye 2 : Mat ℤ), Mat.eye 2] 2 2 2 (by decide) (by decide)
  simpa using h

/-! ### C4: trace preservation of apply_channel for trace-preserving Kraus lists -/

theorem list_sum_map_mul_left {α : Type} (L : List α) (c : R) (f : α → R) :
    (L.map (fun a => c * f a)).sum = c * (L.map f).sum := by
  induction L with
  | nil => simp
  | cons a t ih => simp [ih, mul_add]

theorem sumMats_entry (L : List (Mat R)) (i j : ℕ) :
    (Mat.sumMats L).entry i j = (L.map (fun M => M.entry i j)).sum := rfl

/-- C4: if `sum_i dag(K_i) @ K_i = eye dA` and `rho` is `dA × dA`, then
`apply_channel K rho` (full application, no adjoint) has the same trace as `rho`. -/
theorem C4_trace_preservation (K : List (Mat R)) (rho : Mat R) (dA dB : ℕ)
    (hK : ∀ M ∈ K, M.rows = dB ∧ M.cols = dA)
    (hTP : MatEq (Mat.sumMats (K.map (fun k => k.dag.mul k))) (Mat.eye dA))
    (hrho : rho.rows = dA ∧ rho.cols = dA) :
    Mat.traceM (apply_channel K rho none none false) = Mat.traceM rho := by
  obtain ⟨hT1, hT2, hT3⟩ := hTP
  cases K with
  | nil =>
    have h01 : (0 : R) = 1 := by
      have h := hT3 0 (by simp [Mat.sumMats, Mat.zeroScalar]) 0
        (by simp [Mat.sumMats, Mat.zeroScalar])
      simpa [Mat.sumMats, Mat.eye, Mat.zeroScalar] using h
    have hall : ∀ x : R, x = 0 := fun x => by rw [← mul_one x, ← h01, mul_zero]
    exact (hall _).trans (hall _).symm
  | cons K0 Kt =>
    have hK0 := hK K0 (by simp)
    show Mat.traceM (Mat.sumMats ((K0 :: Kt).map (fun Ki => (Ki.mul rho).mul Ki.dag)))
        = Mat.traceM rho
    have hrowsL : (Mat.sumMats ((K0 :: Kt).map (fun Ki => (Ki.mul rho).mul Ki.dag))).rows
        = dB := by simp [Mat.sumMats, Mat.mul, hK0.1]
    have hrowsT : (Mat.sumMats ((K0 :: Kt).map (fun k => k.dag.mul k))).rows = dA := by
      simp [Mat.sumMats, Mat.mul, Mat.dag, hK0.2]
    have hcolsT : (Mat.sumMats ((K0 :: Kt).map (fun k => k.dag.mul k))).cols = dA := by
      simp [Mat.sumMats, Mat.mul, Mat.dag, hK0.2]
    have step1 : ∀ i j : ℕ,
        (Mat.sumMats ((K0 :: Kt).map (fun Ki => (Ki.mul rho).mul Ki.dag))).entry i j
          = ∑ n ∈ Finset.range (K0 :: Kt).length,
              ((((K0 :: Kt).getD n Mat.zeroScalar).mul rho).mul
                ((K0 :: Kt).getD n Mat.zeroScalar).dag).entry i j := by
      intro i j
      rw [sumMats_entry, List.map_map, list_sum_map_getD _ _ Mat.zeroScalar]
      rfl
    have step2 : ∀ k l : ℕ,
        (Mat.sumMats ((K0 :: Kt).map (fun k' => k'.dag.mul k'))).entry k l
          = ∑ n ∈ Finset.range (K0 :: Kt).length,
              (((K0 :: Kt).getD n Mat.zeroScalar).dag.mul
                ((K0 :: Kt).getD n Mat.zeroScalar)).entry k l := by
      intro k l
      rw [sumMats_entry, List.map_map, list_sum_map_getD _ _ Mat.zeroScalar]
      rfl
    have key : ∀ n ∈ Finset.range (K0 :: Kt).length,
        ∑ i ∈ Finset.range dB,
            ((((K0 :: Kt).getD n Mat.zeroScalar).mul rho).mul
              ((K0 :: Kt).getD n Mat.zeroScalar).dag).entry i i
          = ∑ k ∈ Finset.range dA, ∑ l ∈ Finset.range dA,
              rho.entry l k
                * (((K0 :: Kt).getD n Mat.zeroScalar).dag.mul
                    ((K0 :: Kt).getD n Mat.zeroScalar)).entry k l := by
      intro n hn
      obtain ⟨hr, hc⟩ := hK _ (getD_mem (Finset.mem_range.1 hn) Mat.zeroScalar)
      simp only [Mat.mul, Mat.dag]
      rw [hr, hc, hrho.2]
      simp only [Finset.sum_mul, Finset.mul_sum]
      rw [Finset.sum_comm]
      refine Finset.sum_congr rfl fun k _ => ?_
      rw [Finset.sum_comm]
      refine Finset.sum_congr rfl fun l _ => ?_
      refine Finset.sum_congr rfl fun i _ => ?_
      ring
    simp only [Mat.traceM, hrowsL, hrho.1]
    calc
      ∑ i ∈ Finset.range dB,
          (Mat.sumMats ((K0 :: Kt).map (fun Ki => (Ki.mul rho).mul Ki.dag))).entry i i
        = ∑ i ∈ Finset.range dB, ∑ n ∈ Finset.range (K0 :: Kt).length,
            ((((K0 :: Kt).getD n Mat.zeroScalar).mul rho).mul
              ((K0 :: Kt).getD n Mat.zeroScalar).dag).entry i i :=
          Finset.sum_congr rfl fun i _ => step1 i i
      _ = ∑ n ∈ Finset.range (K0 :: Kt).length, ∑ i ∈ Finset.range dB,
            ((((K0 :: Kt).getD n Mat.zeroScalar).mul rho).mul
              ((K0 :: Kt).getD n Mat.zeroScalar).dag).entry i i := Finset.sum_comm
      _ = ∑ n ∈ Finset.range (K0 :: Kt).length, ∑ k ∈ Finset.range dA,
            ∑ l ∈ Finset.range dA,
              rho.entry l k
                * (((K0 :: Kt).getD n Mat.zeroScalar).dag.mul
                    ((K0 :: Kt).getD n Mat.zeroScalar)).entry k l :=
          Finset.sum_congr rfl key
      _ = ∑ k ∈ Finset.range dA, ∑ l ∈ Finset.range dA,
            rho.entry l k
              * (Mat.sumMats ((K0 :: Kt).map (fun k' => k'.dag.mul k'))).entry k l := by
          rw [Finset.sum_comm]
          refine Finset.sum_congr rfl fun k _ => ?_
          rw [Finset.sum_comm]
          refine Finset.sum_congr rfl fun l _ => ?_
          rw [← Finset.mul_sum, ← step2 k l]
      _ = ∑ k ∈ Finset.range dA, ∑ l ∈ Finset.range dA,
            rho.entry l k * (Mat.eye dA : Mat R).entry k l := by
          refine Finset.sum_congr rfl fun k hk => Finset.sum_congr rfl fun l hl => ?_
          rw [hT3 k (by rw [hrowsT]; exact Finset.mem_range.1 hk)
            l (by rw [hcolsT]; exact Finset.mem_range.1 hl)]
      _ = ∑ k ∈ Finset.range dA, rho.entry k k := by
          refine Finset.sum_congr rfl fun k hk => ?_
          simp only [Mat.eye, mul_ite, mul_one, mul_zero]
          rw [Finset.sum_ite_eq]
          exact if_pos hk


/-- Witness for C4: the identity Kraus channel on one qubit and `rho = eye 2`. -/
theorem C4_trace_preservation_witness :
    (∀ M ∈ [(Mat.eye 2 : Mat ℤ)], M.rows = 2 ∧ M.cols = 2) ∧
      MatEq (Mat.sumMats ([(Mat.eye 2 : Mat ℤ)].map (fun k => k.dag.mul k))) (Mat.eye 2) ∧
      ((Mat.eye 2 : Mat ℤ).rows = 2 ∧ (Mat.eye 2 : Mat ℤ).cols = 2) ∧
      Mat.traceM (apply_channel [(Mat.eye 2 : Mat ℤ)] (Mat.eye 2) none none false)
        = Mat.traceM (Mat.eye 2) :=
  ⟨by decide, by decide, by decide,
    C4_trace_preservation [Mat.eye 2] (Mat.eye 2) 2 2 (by decide) (by decide) (by decide)⟩

/-! ### C5: compose_channels enumerates the Cartesian product, composing right-to-left -/

theorem mem_cartProd {L : List (List ℕ)} {c : List ℕ} (h : c ∈ cartProd L) :
    List.Forall₂ (fun x l => x ∈ l) c L := by
  induction L generalizing c with
  | nil =>
    simp only [cartProd, List.mem_singleton] at h
    simp [h]
  | cons l ls ih =>
    simp only [cartProd] at h
    rcases mem_prependEach.1 h with ⟨x, hx, t, ht, rfl⟩
    exact List.Forall₂.cons hx (ih ht)

theorem matChainProd_append_single (xs : List (Mat R)) (a b : Mat R) :
    matChainProd (xs ++ [a.mul b]) = matChainProd (xs ++ [a] ++ [b]) := by
  cases xs with
  | nil => rfl
  | cons x t =>
    simp only [matChainProd, List.cons_append, List.foldl_append, List.foldl_cons,
      List.foldl_nil]
    exact (mat_mul_assoc _ _ _).symm

theorem foldl_leftmul_eq_chain (ops : List (Mat R)) (e : Mat R) :
    ops.foldl (fun t c => c.mul t) e = matChainProd (ops.reverse ++ [e]) := by
  induction ops generalizing e with
  | nil => rfl
  | cons c rest ih =>
    rw [List.foldl_cons, ih, matChainProd_append_single, List.reverse_cons,
      List.append_assoc]

theorem matChainProd_snoc (xs : List (Mat R)) (y : Mat R) (h : xs ≠ []) :
    matChainProd (xs ++ [y]) = (matChainProd xs).mul y := by
  cases xs with
  | nil => exact absurd rfl h
  | cons x t => simp [matChainProd, List.foldl_append]

theorem matChainProd_dims (L : List (Mat R)) (d : ℕ) (hne : L ≠ [])
    (h : ∀ M ∈ L, M.rows = d ∧ M.cols = d) :
    (matChainProd L).rows = d ∧ (matChainProd L).cols = d := by
  have aux : ∀ (t : List (Mat R)) (X : Mat R), X.rows = d → X.cols = d →
      (∀ M ∈ t, M.rows = d ∧ M.cols = d) →
      (t.foldl Mat.mul X).rows = d ∧ (t.foldl Mat.mul X).cols = d := by
    intro t
    induction t with
    | nil => intro X h1 h2 _; exact ⟨h1, h2⟩
    | cons c t' ih =>
      intro X h1 h2 hm
      refine ih (X.mul c) (by simpa [Mat.mul] using h1)
        (by simpa [Mat.mul] using (hm c (by simp)).2)
        (fun M hM => hm M (by simp [hM]))
  cases L with
  | nil => exact absurd rfl hne
  | cons h0 t =>
    exact aux t h0 (h h0 (by simp)).1 (h h0 (by simp)).2 (fun M hM => h M (by simp [hM]))

theorem matEq_mul_eye (X : Mat R) (d : ℕ) (h : X.cols = d) :
    MatEq (X.mul (Mat.eye d)) X := by
  refine ⟨rfl, by simp [Mat.mul, Mat.eye, h], ?_⟩
  intro i hi j hj
  have hj' : j < d := hj
  simp only [Mat.mul, Mat.eye]
  rw [h]
  simp only [mul_ite, mul_one, mul_zero]
  rw [Finset.sum_ite_eq']
  exact if_pos (Finset.mem_range.2 hj')

theorem getD_map {α β : Type} (L : List α) (f : α → β) (j : ℕ) (h : j < L.length)
    (d : β) (d' : α) : (L.map f).getD j d = f (L.getD j d') := by
  rw [List.getD_eq_getElem?_getD, List.getElem?_map, List.getD_eq_getElem?_getD,
    List.getElem?_eq_getElem h]
  simp

/-- C5: `compose_channels` returns one Kraus operator per tuple of the Cartesian
product of the index ranges (`Π_m |K_m|` operators in total), and the operator
stored at position `j` — the position of the tuple `(i_1, …, i_n)` in the product —
is the left-associated product `K_n[i_n] @ … @ K_1[i_1]`, i.e. the map `K_1` is
applied first. -/
theorem C5_compose_channels (C : List (List (Mat R))) (d : ℕ) (hne : C ≠ [])
    (hsq : ∀ c ∈ C, ∀ M ∈ c, M.rows = d ∧ M.cols = d) :
    (compose_channels C).length = (C.map List.length).prod ∧
      ∀ j < (compose_channels C).length,
        MatEq ((compose_channels C).getD j Mat.zeroScalar)
          (matChainProd (((C.zip
              ((cartProd (C.map (fun c => List.range c.length))).getD j [])).map
            (fun p => p.1.getD p.2 Mat.zeroScalar)).reverse)) := by
  constructor
  · show ((cartProd (C.map fun c => List.range c.length)).map _).length = _
    rw [List.length_map, cartProd_length, List.map_map]
    congr 1
    apply List.map_congr_left
    intro c _
    simp [Function.comp]
  · intro j hj
    have hj' : j < (cartProd (C.map fun c => List.range c.length)).length := by
      simpa [compose_channels] using hj
    set comb := (cartProd (C.map fun c => List.range c.length)).getD j [] with hcombdef
    have hcombmem : comb ∈ cartProd (C.map fun c => List.range c.length) :=
      getD_mem hj' []
    have hf := mem_cartProd hcombmem
    have hf2 : List.Forall₂ (fun x c => x ∈ List.range c.length) comb C := by
      rwa [List.forall₂_map_right_iff] at hf
    have hf3 := hf2.flip
    have hzip : ∀ p ∈ C.zip comb, p.2 ∈ List.range p.1.length := by
      rw [List.forall₂_iff_zip] at hf3
      exact fun p hp => hf3.2 hp
    have hops : ∀ M ∈ (C.zip comb).map (fun p => p.1.getD p.2 Mat.zeroScalar),
        M.rows = d ∧ M.cols = d := by
      intro M hM
      obtain ⟨p, hp, rfl⟩ := List.mem_map.1 hM
      exact hsq p.1 (List.of_mem_zip hp).1 _
        (getD_mem (List.mem_range.1 (hzip p hp)) Mat.zeroScalar)
    have hopsne : (C.zip comb).map (fun p => p.1.getD p.2 Mat.zeroScalar) ≠ [] := by
      have hlen : ((C.zip comb).map (fun p => p.1.getD p.2 Mat.zeroScalar)).length
          = C.length := by
        rw [List.length_map, List.length_zip, hf2.length_eq, Nat.min_self]
      intro hcon
      rw [hcon] at hlen
      exact hne (List.length_eq_zero.1 hlen.symm)
    have hcombne : comb ≠ [] := by
      intro h0
      have hl := hf2.length_eq
      rw [h0] at hl
      cases C with
      | nil => exact hne rfl
      | cons c0 rest => simp at hl
    obtain ⟨x0, ct, hcombeq⟩ := List.exists_cons_of_ne_nil hcombne
    have hdint : ((C.headD []).headD Mat.zeroScalar).rows = d := by
      cases C with
      | nil => exact absurd rfl hne
      | cons c0 rest =>
        have hp : ((c0, x0) : List (Mat R) × ℕ) ∈ (c0 :: rest).zip comb := by
          rw [hcombeq]
          simp
        have hx0 := hzip _ hp
        simp only at hx0
        have hc0ne : c0 ≠ [] := by
          intro h0
          rw [h0] at hx0
          simp at hx0
        cases c0 with
        | nil => exact absurd rfl hc0ne
        | cons m0 ms => exact (hsq (m0 :: ms) (by simp) m0 (by simp)).1
    have hget : (compose_channels C).getD j Mat.zeroScalar
        = (C.zip comb).foldl (fun tmp p => (p.1.getD p.2 Mat.zeroScalar).mul tmp)
            (Mat.eye ((C.headD []).headD Mat.zeroScalar).rows) := by
      show ((cartProd (C.map fun c => List.range c.length)).map _).getD j Mat.zeroScalar = _
      rw [getD_map _ _ j hj' Mat.zeroScalar []]
    have hfold : ((C.zip comb).map (fun p => p.1.getD p.2 Mat.zeroScalar)).foldl
        (fun t c => c.mul t) (Mat.eye d)
        = (C.zip comb).foldl (fun tmp p => (p.1.getD p.2 Mat.zeroScalar).mul tmp)
            (Mat.eye d) := by
      rw [List.foldl_map]
    rw [hget, hdint, ← hfold, foldl_leftmul_eq_chain,
      matChainProd_snoc _ _ (by rw [ne_eq, List.reverse_eq_nil_iff]; exact hopsne)]
    exact matEq_mul_eye _ d
      (matChainProd_dims _ d (by rw [ne_eq, List.reverse_eq_nil_iff]; exact hopsne)
        (fun M hM => hops M (List.mem_reverse.1 hM))).2

/-- Witness for C5: two one-qubit maps with one and two Kraus operators. -/
theorem C5_compose_channels_witness :
    ([[Mat.eye 2], [(Mat.eye 2 : Mat ℤ), Mat.eye 2]] : List (List (Mat ℤ))) ≠ [] ∧
      (∀ c ∈ ([[Mat.eye 2], [(Mat.eye 2 : Mat ℤ), Mat.eye 2]] : List (List (Mat ℤ))),
        ∀ M ∈ c, M.rows = 2 ∧ M.cols = 2) ∧
      ((compose_channels [[Mat.eye 2], [(Mat.eye 2 : Mat ℤ), Mat.eye 2]]).length
          = ([[Mat.eye 2], [(Mat.eye 2 : Mat ℤ), Mat.eye 2]].map List.length).prod ∧
        ∀ j < (compose_channels [[Mat.eye 2], [(Mat.eye 2 : Mat ℤ), Mat.eye 2]]).length,
          MatEq ((compose_channels [[Mat.eye 2], [(Mat.eye 2 : Mat ℤ), Mat.eye 2]]).getD j
              Mat.zeroScalar)
            (matChainProd ((([[Mat.eye 2], [(Mat.eye 2 : Mat ℤ), Mat.eye 2]].zip
                ((cartProd ([[Mat.eye 2], [(Mat.eye 2 : Mat ℤ), Mat.eye 2]].map
                  (fun c => List.range c.length))).getD j [])).map
              (fun p => p.1.getD p.2 Mat.zeroScalar)).reverse))) :=
  ⟨List.cons_ne_nil _ _, by decide,
    C5_compose_channels [[Mat.eye 2], [Mat.eye 2, Mat.eye 2]] 2 (List.cons_ne_nil _ _)
      (by decide)⟩

/-! ### The entries of a Choi representation -/

theorem pairLt {a b m n : ℕ} (ha : a < m) (hb : b < n) : a * n + b < m * n := by
  calc a * n + b < a * n + n := by omega
    _ = (a + 1) * n := by ring
    _ ≤ m * n := Nat.mul_le_mul_right n ha

theorem mul_add_div_eq (n X y : ℕ) (hn : 0 < n) (hy : y < n) : (X * n + y) / n = X := by
  rw [Nat.add_comm, Nat.mul_comm, Nat.add_mul_div_left _ _ hn, Nat.div_eq_of_lt hy,
    Nat.zero_add]

theorem mul_add_mod_eq (n X y : ℕ) (hy : y < n) : (X * n + y) % n = y := by
  rw [Nat.mul_comm, Nat.mul_add_mod, Nat.mod_eq_of_lt hy]

theorem sum_range_mul_split (m n : ℕ) (f : ℕ → R) :
    ∑ a ∈ Finset.range (m * n), f a
      = ∑ x ∈ Finset.range m, ∑ y ∈ Finset.range n, f (x * n + y) := by
  induction m with
  | zero => simp
  | succ k ih =>
    have h1 : (k + 1) * n = k * n + n := by ring
    rw [h1, Finset.range_eq_Ico,
      ← Finset.sum_Ico_consecutive f (Nat.zero_le (k * n)) (Nat.le_add_right (k * n) n),
      ← Finset.range_eq_Ico, ih, Finset.sum_Ico_eq_sum_range, Finset.sum_range_succ]
    congr 1
    simp

theorem max_ent_entry (d : ℕ) (a k : ℕ) :
    (max_ent d : Mat R).entry a k
      = (if a / d = a % d then (1 : R) else 0)
          * (if k / d = k % d then (1 : R) else 0) := by
  show ∑ t ∈ Finset.range (maxEntVec d : Mat R).cols,
      (maxEntVec d : Mat R).entry a t * star ((maxEntVec d : Mat R).entry k t) = _
  rw [show (maxEntVec d : Mat R).cols = 1 from rfl, Finset.sum_range_one]
  show (if a / d = a % d then (1 : R) else 0)
      * star (if k / d = k % d then (1 : R) else 0) = _
  rw [apply_ite (star : R → R), star_one, star_zero]

theorem sum_W_gamma (Ki : Mat R) (dA dB : ℕ) (hdA : 0 < dA) (hdB : 0 < dB)
    (hr : Ki.rows = dB) (hc : Ki.cols = dA) (p : ℕ) (hp : p < dA * dB) :
    ∑ a ∈ Finset.range (dA * dA),
        ((Mat.oneScalar.kron (Mat.eye dA)).kron Ki).entry p a
          * (if a / dA = a % dA then (1 : R) else 0)
      = Ki.entry (p % dB) (p / dB) := by
  have hpdb : p / dB < dA := by
    rw [Nat.div_lt_iff_lt_mul hdB]
    exact hp
  rw [sum_range_mul_split dA dA]
  have hinner : ∀ x ∈ Finset.range dA,
      (∑ y ∈ Finset.range dA,
          ((Mat.oneScalar.kron (Mat.eye dA)).kron Ki).entry p (x * dA + y)
            * (if (x * dA + y) / dA = (x * dA + y) % dA then (1 : R) else 0))
        = (if p / dB = x then (1 : R) else 0) * Ki.entry (p % dB) x := by
    intro x hx
    have hx' : x < dA := Finset.mem_range.1 hx
    have h1 : ∀ y ∈ Finset.range dA,
        ((Mat.oneScalar.kron (Mat.eye dA)).kron Ki).entry p (x * dA + y)
            * (if (x * dA + y) / dA = (x * dA + y) % dA then (1 : R) else 0)
          = if x = y
              then ((Mat.oneScalar.kron (Mat.eye dA)).kron Ki).entry p (x * dA + y)
              else 0 := by
      intro y hy
      have hy' : y < dA := Finset.mem_range.1 hy
      rw [mul_add_div_eq dA x y hdA hy', mul_add_mod_eq dA x y hy']
      by_cases hxy : x = y
      · simp [hxy]
      · simp [hxy]
    rw [Finset.sum_congr rfl h1, Finset.sum_ite_eq, if_pos hx]
    have hentry : ((Mat.oneScalar.kron (Mat.eye dA)).kron Ki).entry p (x * dA + x)
        = (if p / dB = x then (1 : R) else 0) * Ki.entry (p % dB) x := by
      show (Mat.oneScalar.kron (Mat.eye dA)).entry (p / Ki.rows) ((x * dA + x) / Ki.cols)
          * Ki.entry (p % Ki.rows) ((x * dA + x) % Ki.cols) = _
      rw [hr, hc, mul_add_div_eq dA x x hdA hx', mul_add_mod_eq dA x x hx']
      show (1 : R) * (if (p / dB) % dA = x % dA then (1 : R) else 0)
          * Ki.entry (p % dB) x = _
      rw [Nat.mod_eq_of_lt hpdb, Nat.mod_eq_of_lt hx', one_mul]
    exact hentry
  rw [Finset.sum_congr rfl hinner]
  have h2 : ∀ x ∈ Finset.range dA,
      (if p / dB = x then (1 : R) else 0) * Ki.entry (p % dB) x
        = if p / dB = x then Ki.entry (p % dB) x else 0 := by
    intro x _
    by_cases hxy : p / dB = x <;> simp [hxy]
  rw [Finset.sum_congr rfl h2, Finset.sum_ite_eq, if_pos (Finset.mem_range.2 hpdb)]

/-- The entries of `choi_representation K dA` for `dB × dA` Kraus operators:
`C[(a,b), (a',b')] = Σ_i K_i[b,a] · star K_i[b',a']` with the flat row index
`p = a·dB + b` and column index `q = a'·dB + b'`. -/
theorem choi_repr_entry (K : List (Mat R)) (dA dB : ℕ)
    (hK : ∀ M ∈ K, M.rows = dB ∧ M.cols = dA) (hdA : 0 < dA) (hdB : 0 < dB)
    (p q : ℕ) (hp : p < dA * dB) (hq : q < dA * dB) :
    (choi_representation K dA).entry p q
      = ∑ i ∈ Finset.range K.length,
          (K.getD i Mat.zeroScalar).entry (p % dB) (p / dB)
            * star ((K.getD i Mat.zeroScalar).entry (q % dB) (q / dB)) := by
  rw [choi_representation, apply_channel_sys2, sumMats_entry, List.map_map,
    list_sum_map_range]
  refine Finset.sum_congr rfl fun i hi => ?_
  obtain ⟨hr, hc⟩ := hK _ (getD_mem (Finset.mem_range.1 hi) Mat.zeroScalar)
  set Ki := K.getD i Mat.zeroScalar with hKidef
  set Wi := (Mat.oneScalar.kron (Mat.eye dA)).kron Ki with hWidef
  have hWcols : Wi.cols = dA * dA := by
    rw [hWidef]
    show 1 * dA * Ki.cols = dA * dA
    rw [hc, one_mul]
  show ∑ k ∈ Finset.range (max_ent dA : Mat R).cols,
      (∑ a ∈ Finset.range Wi.cols, Wi.entry p a * (max_ent dA : Mat R).entry a k)
        * star (Wi.entry q k) = _
  rw [show (max_ent dA : Mat R).cols = dA * dA from rfl, hWcols]
  have step1 : ∀ k ∈ Finset.range (dA * dA),
      (∑ a ∈ Finset.range (dA * dA), Wi.entry p a * (max_ent dA : Mat R).entry a k)
          * star (Wi.entry q k)
        = ((∑ a ∈ Finset.range (dA * dA),
              Wi.entry p a * (if a / dA = a % dA then (1 : R) else 0))
            * ((if k / dA = k % dA then (1 : R) else 0) * star (Wi.entry q k))) := by
    intro k _
    rw [Finset.sum_mul, Finset.sum_mul]
    refine Finset.sum_congr rfl fun a _ => ?_
    rw [max_ent_entry]
    ring
  rw [Finset.sum_congr rfl step1, ← Finset.mul_sum]
  have step2 : ∑ k ∈ Finset.range (dA * dA),
      (if k / dA = k % dA then (1 : R) else 0) * star (Wi.entry q k)
        = star (∑ k ∈ Finset.range (dA * dA),
            Wi.entry q k * (if k / dA = k % dA then (1 : R) else 0)) := by
    rw [star_sum]
    refine Finset.sum_congr rfl fun k _ => ?_
    rw [star_mul', apply_ite (star : R → R), star_one, star_zero]
    ring
  rw [step2, sum_W_gamma Ki dA dB hdA hdB hr hc p hp, sum_W_gamma Ki dA dB hdA hdB hr hc q hq]

theorem choi_repr_dims (K0 : Mat R) (Kt : List (Mat R)) (dA : ℕ) :
    (choi_representation (K0 :: Kt) dA).rows = 1 * dA * K0.rows ∧
      (choi_representation (K0 :: Kt) dA).cols = 1 * dA * K0.rows := by
  rw [choi_representation, apply_channel_sys2]
  have h0 : List.range (K0 :: Kt).length = 0 :: (List.range Kt.length).map Nat.succ := by
    simp [List.range_succ_eq_map]
  rw [h0]
  constructor <;> rfl

/-! ### C3: choi_to_natural of a Choi representation equals natural_representation -/

/-- C3: for every nonempty Kraus list of `dB × dA` operators, the index-reshuffle
`choi_to_natural (choi_representation K dA) dA dB` coincides (as numpy arrays) with
`natural_representation K = Σ_i K_i ⊗ conj(K_i)`. -/
theorem C3_choi_to_natural (K : List (Mat R)) (dA dB : ℕ)
    (hK : ∀ M ∈ K, M.rows = dB ∧ M.cols = dA) (hdA : 0 < dA) (hdB : 0 < dB)
    (hne : K ≠ []) :
    MatEq (choi_to_natural (choi_representation K dA) dA dB)
      (natural_representation K) := by
  cases K with
  | nil => exact absurd rfl hne
  | cons K0 Kt =>
    obtain ⟨hr0, hc0⟩ := hK K0 (by simp)
    have hCcols : (choi_representation (K0 :: Kt) dA).cols = dA * dB := by
      rw [(choi_repr_dims K0 Kt dA).2, hr0]
      ring
    refine ⟨?_, ?_, ?_⟩
    · show dB * dB = (Mat.sumMats ((K0 :: Kt).map (fun k => k.kron k.conjM))).rows
      show dB * dB = K0.rows * K0.rows
      rw [hr0]
    · show dA * dA = (Mat.sumMats ((K0 :: Kt).map (fun k => k.kron k.conjM))).cols
      show dA * dA = K0.cols * K0.cols
      rw [hc0]
    · intro p hpr q hqr
      have hp : p < dB * dB := hpr
      have hq : q < dA * dA := hqr
      have hpdiv : p / dB < dB := by rw [Nat.div_lt_iff_lt_mul hdB]; exact hp
      have hqdiv : q / dA < dA := by rw [Nat.div_lt_iff_lt_mul hdA]; exact hq
      show (choi_representation (K0 :: Kt) dA).flatF
          ((((q / dA) * dB + p / dB) * dA + q % dA) * dB + p % dB)
        = (Mat.sumMats ((K0 :: Kt).map (fun k => k.kron k.conjM))).entry p q
      simp only [Mat.flatF]
      rw [hCcols]
      have hteq : (((q / dA) * dB + p / dB) * dA + q % dA) * dB + p % dB
          = ((q / dA) * dB + p / dB) * (dA * dB) + ((q % dA) * dB + p % dB) := by ring
      have hP2lt : (q % dA) * dB + p % dB < dA * dB :=
        pairLt (Nat.mod_lt _ hdA) (Nat.mod_lt _ hdB)
      have hP1lt : (q / dA) * dB + p / dB < dA * dB := pairLt hqdiv hpdiv
      rw [show ((((q / dA) * dB + p / dB) * dA + q % dA) * dB + p % dB) / (dA * dB)
          = (q / dA) * dB + p / dB from by
        rw [hteq]; exact mul_add_div_eq (dA * dB) _ _ (Nat.mul_pos hdA hdB) hP2lt]
      rw [show ((((q / dA) * dB + p / dB) * dA + q % dA) * dB + p % dB) % (dA * dB)
          = (q % dA) * dB + p % dB from by
        rw [hteq]; exact mul_add_mod_eq (dA * dB) _ _ hP2lt]
      rw [choi_repr_entry (K0 :: Kt) dA dB hK hdA hdB _ _ hP1lt hP2lt]
      rw [sumMats_entry, List.map_map, list_sum_map_getD _ _ Mat.zeroScalar]
      refine Finset.sum_congr rfl fun n hn => ?_
      obtain ⟨hrn, hcn⟩ := hK _ (getD_mem (Finset.mem_range.1 hn) Mat.zeroScalar)
      rw [mul_add_mod_eq dB _ _ (Nat.mod_lt _ hdB),
        mul_add_div_eq dB _ _ hdB (Nat.mod_lt _ hdB),
        mul_add_mod_eq dB _ _ hpdiv, mul_add_div_eq dB _ _ hdB hpdiv]
      show ((K0 :: Kt).getD n Mat.zeroScalar).entry (p / dB) (q / dA)
            * star (((K0 :: Kt).getD n Mat.zeroScalar).entry (p % dB) (q % dA))
          = ((K0 :: Kt).getD n Mat.zeroScalar).entry
              (p / ((K0 :: Kt).getD n Mat.zeroScalar).rows)
              (q / ((K0 :: Kt).getD n Mat.zeroScalar).cols)
            * star (((K0 :: Kt).getD n Mat.zeroScalar).entry
              (p % ((K0 :: Kt).getD n Mat.zeroScalar).rows)
              (q % ((K0 :: Kt).getD n Mat.zeroScalar).cols))
      rw [hrn, hcn]

/-- Witness for C3: the one-qubit identity-Kraus map. -/
theorem C3_choi_to_natural_witness :
    (∀ M ∈ [(Mat.eye 2 : Mat ℤ)], M.rows = 2 ∧ M.cols = 2) ∧ 0 < 2 ∧ 0 < 2 ∧
      MatEq (choi_to_natural (choi_representation [(Mat.eye 2 : Mat ℤ)] 2) 2 2)
        (natural_representation [(Mat.eye 2 : Mat ℤ)]) :=
  ⟨by decide, by decide, by decide,
    C3_choi_to_natural [Mat.eye 2] 2 2 (by decide) (by decide) (by decide)
      (List.cons_ne_nil _ _)⟩

/-! ### C1: Choi → Kraus → Choi round trip -/

theorem getD_range {n i : ℕ} (h : i < n) (d : ℕ) : (List.range n).getD i d = i := by
  rw [List.getD_eq_getElem?_getD, List.getElem?_range h]
  rfl

/-- C1: let `K` be a Kraus list of `dB × dA` operators and let the external
eigendecomposition of `P = choi_representation K dA` return a unitary eigenvector
matrix `U` and eigenvalues `D` (so `P = U · diag D · U†`), with `sqrtD i` the backend
square root of `D i` (so `star (sqrtD i) * sqrtD i = D i`, which holds for the
principal square root of the nonnegative real eigenvalues of a CP map's Choi
matrix).  Then the Kraus list produced by `choi_to_kraus P dA dB` induces the same
Choi matrix: `choi_representation (choi_to_kraus P dA dB …) dA = P`. -/
theorem C1_choi_kraus_roundtrip (K : List (Mat R)) (dA dB : ℕ) (D sqrtD : ℕ → R)
    (U Ugs : Mat R) (hdA : 0 < dA) (hdB : 0 < dB)
    (hK : ∀ M ∈ K, M.rows = dB ∧ M.cols = dA)
    (hUrows : U.rows = dA * dB) (hUcols : U.cols = dA * dB)
    (hU1 : MatEq (Mat.eye (dA * dB)) (U.mul U.dag))
    (hU2 : MatEq (Mat.eye (dA * dB)) (U.dag.mul U))
    (hs : ∀ i < dA * dB, star (sqrtD i) * sqrtD i = D i)
    (hdecomp : MatEq (choi_representation K dA)
      (U.mul ((Mat.diagM (dA * dB) D).mul U.dag))) :
    MatEq (choi_representation
        (choi_to_kraus (choi_representation K dA) dA dB sqrtD U Ugs) dA)
      (choi_representation K dA) := by
  have hKr : choi_to_kraus (choi_representation K dA) dA dB sqrtD U Ugs
      = (List.range (dA * dB)).map
          (fun i => (Mat.smul (sqrtD i) (Mat.unvec dA dB (U.colF i))).transp) := by
    simp only [choi_to_kraus]
    rw [if_pos ⟨hU1, hU2⟩, hUcols]
  rw [hKr]
  set Kp := (List.range (dA * dB)).map
    (fun i => (Mat.smul (sqrtD i) (Mat.unvec dA dB (U.colF i))).transp) with hKpdef
  have hKpshape : ∀ M ∈ Kp, M.rows = dB ∧ M.cols = dA := by
    intro M hM
    obtain ⟨i, hi, rfl⟩ := List.mem_map.1 hM
    exact ⟨rfl, rfl⟩
  have hKplen : Kp.length = dA * dB := by
    rw [hKpdef, List.length_map, List.length_range]
  have hKpne : Kp ≠ [] := by
    intro h0
    rw [h0] at hKplen
    have hpos := Nat.mul_pos hdA hdB
    simp at hKplen
    omega
  obtain ⟨M0, Mt, hKeq⟩ := List.exists_cons_of_ne_nil hKpne
  have hM0 : M0.rows = dB := (hKpshape M0 (by rw [hKeq]; simp)).1
  have hCrows : (choi_representation K dA).rows = dA * dB := by
    rw [hdecomp.1]
    exact hUrows
  have hCcols : (choi_representation K dA).cols = dA * dB := by
    rw [hdecomp.2.1]
    exact hUrows
  have hKprows : (choi_representation Kp dA).rows = 1 * dA * dB := by
    rw [hKeq, (choi_repr_dims M0 Mt dA).1, hM0]
  have hKpcols : (choi_representation Kp dA).cols = 1 * dA * dB := by
    rw [hKeq, (choi_repr_dims M0 Mt dA).2, hM0]
  refine ⟨?_, ?_, ?_⟩
  · rw [hKprows, hCrows]
    ring
  · rw [hKpcols, hCcols]
    ring
  · intro p hpr q hqr
    have hp : p < dA * dB := by rw [hKprows, one_mul] at hpr; exact hpr
    have hq : q < dA * dB := by rw [hKpcols, one_mul] at hqr; exact hqr
    have hRHS : (U.mul ((Mat.diagM (dA * dB) D).mul U.dag)).entry p q
        = ∑ l ∈ Finset.range (dA * dB), U.entry p l * (D l * star (U.entry q l)) := by
      show ∑ l ∈ Finset.range U.cols,
          U.entry p l * ((Mat.diagM (dA * dB) D).mul U.dag).entry l q = _
      rw [hUcols]
      refine Finset.sum_congr rfl fun l hl => ?_
      congr 1
      show ∑ k ∈ Finset.range (Mat.diagM (dA * dB) D : Mat R).cols,
          (if l = k then D l else 0) * star (U.entry q k)
        = D l * star (U.entry q l)
      rw [show (Mat.diagM (dA * dB) D : Mat R).cols = dA * dB from rfl]
      have hite : ∀ k ∈ Finset.range (dA * dB),
          (if l = k then D l else 0) * star (U.entry q k)
            = if l = k then D l * star (U.entry q k) else 0 := by
        intro k _
        by_cases h : l = k <;> simp [h]
      rw [Finset.sum_congr rfl hite, Finset.sum_ite_eq, if_pos hl]
    rw [choi_repr_entry Kp dA dB hKpshape hdA hdB p q hp hq,
      hdecomp.2.2 p (by rw [hCrows]; exact hp) q (by rw [hCcols]; exact hq), hRHS,
      hKplen]
    refine Finset.sum_congr rfl fun i hi => ?_
    have hi' : i < dA * dB := Finset.mem_range.1 hi
    have hgd : Kp.getD i Mat.zeroScalar
        = (Mat.smul (sqrtD i) (Mat.unvec dA dB (U.colF i))).transp := by
      rw [hKpdef, getD_map _ _ i (by rw [List.length_range]; exact hi') _ 0,
        getD_range hi' 0]
    rw [hgd]
    show (sqrtD i * U.entry ((p / dB) * dB + p % dB) i)
        * star (sqrtD i * U.entry ((q / dB) * dB + q % dB) i)
      = U.entry p i * (D i * star (U.entry q i))
    rw [show (p / dB) * dB + p % dB = p from by
        rw [Nat.mul_comm]; exact Nat.div_add_mod p dB,
      show (q / dB) * dB + q % dB = q from by
        rw [Nat.mul_comm]; exact Nat.div_add_mod q dB,
      star_mul']
    calc (sqrtD i * U.entry p i) * (star (sqrtD i) * star (U.entry q i))
        = (star (sqrtD i) * sqrtD i) * (U.entry p i * star (U.entry q i)) := by ring
      _ = D i * (U.entry p i * star (U.entry q i)) := by rw [hs i hi']
      _ = U.entry p i * (D i * star (U.entry q i)) := by ring

/-- Witness for C1: the one-dimensional CP map with single Kraus operator `[2]`,
whose Choi matrix `[4]` has the explicit eigendecomposition `U = [1]`, `D = [4]`,
`sqrt D = [2]`. -/
theorem C1_choi_kraus_roundtrip_witness :
    (0 < 1) ∧
      (∀ M ∈ [(⟨1, 1, fun _ _ => 2⟩ : Mat ℤ)], M.rows = 1 ∧ M.cols = 1) ∧
      ((⟨1, 1, fun _ _ => 1⟩ : Mat ℤ).rows = 1 * 1) ∧
      MatEq (Mat.eye (1 * 1))
        ((⟨1, 1, fun _ _ => 1⟩ : Mat ℤ).mul (⟨1, 1, fun _ _ => 1⟩ : Mat ℤ).dag) ∧
      MatEq (Mat.eye (1 * 1))
        ((⟨1, 1, fun _ _ => 1⟩ : Mat ℤ).dag.mul (⟨1, 1, fun _ _ => 1⟩ : Mat ℤ)) ∧
      (∀ i < 1 * 1, star (2 : ℤ) * 2 = 4) ∧
      MatEq (choi_representation [(⟨1, 1, fun _ _ => 2⟩ : Mat ℤ)] 1)
        ((⟨1, 1, fun _ _ => 1⟩ : Mat ℤ).mul
          ((Mat.diagM (1 * 1) (fun _ => 4)).mul (⟨1, 1, fun _ _ => 1⟩ : Mat ℤ).dag)) ∧
      MatEq (choi_representation
          (choi_to_kraus (choi_representation [(⟨1, 1, fun _ _ => 2⟩ : Mat ℤ)] 1) 1 1
            (fun _ => 2) ⟨1, 1, fun _ _ => 1⟩ Mat.zeroScalar) 1)
        (choi_representation [(⟨1, 1, fun _ _ => 2⟩ : Mat ℤ)] 1) :=
  ⟨by decide, by decide, by decide, by decide, by decide, by decide, by decide,
    C1_choi_kraus_roundtrip [⟨1, 1, fun _ _ => 2⟩] 1 1 (fun _ => 4) (fun _ => 2)
      ⟨1, 1, fun _ _ => 1⟩ Mat.zeroScalar (by decide) (by decide) (by decide)
      (by decide) (by decide) (by decide) (by decide) (by decide) (by decide)⟩
